import Mathlib

/-!
# Verification of the shared-expense settlement engine

Shallow embedding of the core of `expense_tracker.py` (class `ExpenseTracker`):
the share allocator `_compute_shares_from_splits`, the balance accumulation in
`calculate_shared_balances`, the greedy settlement generator `_settle`, and the
validation logic of `add_shared_expense` / `update_shared_expense`.

Numeric model: Python floats are modelled as exact rationals (`ℚ`).  Python
dicts are modelled as association lists in insertion order (`List (Int × ℚ)`):
setting an existing key updates it in place, setting a fresh key appends.
Python's stable `list.sort(..., reverse=True)` is modelled by the stable
insertion sort `List.insertionSort` with the reversed order.  Exceptions are
modelled with `Except`: a raised validation error aborts the call, so an
erroring call returns no data at all.
-/

/-- `split_type` column: constrained to `{'fixed', 'percentage'}` by the schema
check constraint and by the validation in `add_shared_expense` /
`update_shared_expense`. -/
inductive SplitKind where
  | fixed
  | percentage
deriving DecidableEq, Repr

/-- One split declaration row, in the normalized shape the allocator consumes
(`{"user_id": ..., "split_type": ..., "value": ...}`); the duck-typed
`_split_value` helper reads the same number from either a `value` or a
`split_value` field, so a single numeric field models both shapes. -/
structure Split where
  user_id : Int
  split_type : SplitKind
  value : ℚ
deriving DecidableEq, Repr

/-- The errors `_compute_shares_from_splits` can raise (`ValueError`s in the
source, distinguished by message). -/
inductive AllocError where
  | NoParticipants
  | FixedExceedsTotal
  | AllocationExceedsTotal
deriving DecidableEq, Repr

/-- The `1e-6` tolerance used by the allocator. -/
def tol : ℚ := 1 / 1000000

/-- Python `d.get(k, 0.0)` on an insertion-ordered dict. -/
def dget : List (Int × ℚ) → Int → ℚ
  | [], _ => 0
  | p :: ps, k => if p.1 = k then p.2 else dget ps k

/-- Python `d[k] = v`: overwrite the (first) binding of `k`, or append. -/
def dset : List (Int × ℚ) → Int → ℚ → List (Int × ℚ)
  | [], k, v => [(k, v)]
  | p :: ps, k, v => if p.1 = k then (k, v) :: ps else p :: dset ps k v

/-- Python `d[k] = d.get(k, 0.0) + x`, the accumulation idiom used throughout. -/
def addTo (m : List (Int × ℚ)) (k : Int) (x : ℚ) : List (Int × ℚ) :=
  dset m k (dget m k + x)

/-- Python `sum(d.values())`. -/
def valuesSum (m : List (Int × ℚ)) : ℚ := (m.map Prod.snd).sum

/-- `fixed_total`: sum of the values of fixed-kind declarations. -/
def fixedTotal (splits : List Split) : ℚ :=
  (splits.map (fun s => if s.split_type = SplitKind.fixed then s.value else 0)).sum

/-- `percent_total`: sum of the values of percentage-kind declarations (the
source adds every non-fixed row here; the kind is constrained to two values). -/
def percentTotal (splits : List Split) : ℚ :=
  (splits.map (fun s => if s.split_type = SplitKind.percentage then s.value else 0)).sum

/-- First pass of `_compute_shares_from_splits`: seed each user's share with the
sum of their fixed declarations. -/
def fixedShares (splits : List Split) : List (Int × ℚ) :=
  splits.foldl
    (fun m s => if s.split_type = SplitKind.fixed then addTo m s.user_id s.value else m) []

/-- Percentage branch: every percentage row adds `remaining * (value / percent_total)`. -/
def pctShares (remaining pt : ℚ) (splits : List Split) (base : List (Int × ℚ)) :
    List (Int × ℚ) :=
  splits.foldl
    (fun m s =>
      if s.split_type = SplitKind.percentage then addTo m s.user_id (remaining * (s.value / pt))
      else m)
    base

/-- Equal-split fallback: every declaration row (fixed rows included) adds the
same `even_share` to its user. -/
def evenShares (even : ℚ) (splits : List Split) (base : List (Int × ℚ)) :
    List (Int × ℚ) :=
  splits.foldl (fun m s => addTo m s.user_id even) base

/-- The distribution phase of `_compute_shares_from_splits` (everything after
the `remaining < -1e-6` check): distribute `remaining` proportionally over the
percentage rows if any carry weight, otherwise evenly over all rows; if
`remaining ≤ 1e-6` nothing further is distributed. -/
def distributeShares (total : ℚ) (splits : List Split) (base : List (Int × ℚ)) :
    List (Int × ℚ) :=
  let remaining := total - fixedTotal splits
  if tol < remaining then
    if 0 < percentTotal splits then pctShares remaining (percentTotal splits) splits base
    else evenShares (remaining / (splits.length : ℚ)) splits base
  else base

/-- `_compute_shares_from_splits(total_amount, splits)`. -/
def computeShares (total : ℚ) (splits : List Split) :
    Except AllocError (List (Int × ℚ)) :=
  if splits = [] then .error .NoParticipants
  else if tol < fixedTotal splits - total then .error .FixedExceedsTotal
  else if total - fixedTotal splits < -tol then .error .AllocationExceedsTotal
  else .ok (distributeShares total splits (fixedShares splits))

/-- One shared expense as consumed by the accumulation loop of
`calculate_shared_balances` (columns that do not influence balances are
omitted). -/
structure Expense where
  total_amount : ℚ
  paid_by_user_id : Int
  splits : List Split
deriving DecidableEq, Repr

/-- The body of the accumulation loop in `calculate_shared_balances`: credit the
payer with `total_amount`, then debit every user's allocated share.  In the
source a failing allocation raises, aborting the whole computation and
producing no map; here a failing allocation leaves `net` unchanged, and every
theorem about `accumulate` assumes all allocations succeed, which matches the
raising behaviour. -/
def applyExpense (net : List (Int × ℚ)) (e : Expense) : List (Int × ℚ) :=
  match computeShares e.total_amount e.splits with
  | .error _ => net
  | .ok shares =>
      shares.foldl (fun n p => addTo n p.1 (-p.2))
        (addTo net e.paid_by_user_id e.total_amount)

/-- The full accumulation pass of `calculate_shared_balances` over a list of
expenses, starting from the empty net-balance dict. -/
def accumulate (es : List Expense) : List (Int × ℚ) :=
  es.foldl applyExpense []

/-- A settlement transfer (`Settlement` dataclass). -/
structure Settlement where
  payer_id : Int
  receiver_id : Int
  amount : ℚ
deriving DecidableEq, Repr

/-- Python's `round` is round-half-to-even on the scaled value. -/
def roundHalfEven (q : ℚ) : ℤ :=
  if q - ⌊q⌋ < 1 / 2 then ⌊q⌋
  else if 1 / 2 < q - ⌊q⌋ then ⌊q⌋ + 1
  else if ⌊q⌋ % 2 = 0 then ⌊q⌋ else ⌊q⌋ + 1

/-- `round(x, 2)`. -/
def round2 (q : ℚ) : ℚ := (roundHalfEven (q * 100) : ℚ) / 100

/-- Python's stable `sort(key=lambda x: x[1], reverse=True)`: a stable
descending sort on the second component. -/
def sortDesc (l : List (Int × ℚ)) : List (Int × ℚ) :=
  l.insertionSort (fun a b => b.2 ≤ a.2)

/-- The fuelled two-pointer sweep of `_settle`, exactly mirroring the source's
`while ci < len(creditors) and di < len(debtors)` loop: each iteration pays
`min` of the two head remainders, records the transfer rounded to 2 decimals,
decrements both remainders by the unrounded amount, and drops any head whose
remainder fell to `≤ 0.009` (both drop tests are independent, as in the
source, so a hypothetical iteration advancing neither index consumes fuel and
`none` models non-termination). -/
def settleLoopFuel : Nat → List (Int × ℚ) → List (Int × ℚ) → Option (List Settlement)
  | _, [], _ => some []
  | _, _ :: _, [] => some []
  | 0, _ :: _, _ :: _ => none
  | n + 1, (cid, camt) :: cs, (did, damt) :: ds =>
      let pay := min camt damt
      let s : Settlement := ⟨did, cid, round2 pay⟩
      let cs' := if camt - pay ≤ 9 / 1000 then cs else (cid, camt - pay) :: cs
      let ds' := if damt - pay ≤ 9 / 1000 then ds else (did, damt - pay) :: ds
      (settleLoopFuel n cs' ds').map (s :: ·)

/-- The sweep with its termination bound: every iteration advances at least one
index, so `#creditors + #debtors` iterations always suffice (proved below). -/
def settleLoop (cs ds : List (Int × ℚ)) : List Settlement :=
  (settleLoopFuel (cs.length + ds.length) cs ds).getD []

/-- The creditor list of `_settle`: balances `> 0.009`, sorted descending. -/
def creditorsOf (net : List (Int × ℚ)) : List (Int × ℚ) :=
  sortDesc (net.filter (fun p => 9 / 1000 < p.2))

/-- The debtor list of `_settle`: balances `< -0.009`, negated, sorted descending. -/
def debtorsOf (net : List (Int × ℚ)) : List (Int × ℚ) :=
  sortDesc ((net.filter (fun p => p.2 < -(9 / 1000))).map (fun p => (p.1, -p.2)))

/-- `_settle(net_by_user)`. -/
def settle (net : List (Int × ℚ)) : List Settlement :=
  settleLoop (creditorsOf net) (debtorsOf net)

/-- Total amount u receives as a settlement receiver. -/
def recvAmt (u : Int) (ss : List Settlement) : ℚ :=
  (ss.map (fun s => if s.receiver_id = u then s.amount else 0)).sum

/-- Total amount u pays as a settlement payer. -/
def paidAmt (u : Int) (ss : List Settlement) : ℚ :=
  (ss.map (fun s => if s.payer_id = u then s.amount else 0)).sum

/-- Apply all settlements back against a net-balance map: each transfer's
recorded amount is added to the payer's balance and subtracted from the
receiver's. -/
def applySettlements (ss : List Settlement) (net : List (Int × ℚ)) :
    List (Int × ℚ) :=
  net.map (fun p => (p.1, p.2 + paidAmt p.1 ss - recvAmt p.1 ss))

/-- A balance is an exact multiple of one cent. -/
def isCent (q : ℚ) : Prop := (q * 100).den = 1

instance : DecidablePred isCent := fun q => inferInstanceAs (Decidable ((q * 100).den = 1))

/-- Boolean test that `_compute_shares_from_splits` returns without raising. -/
def allocSucceeds (total : ℚ) (splits : List Split) : Bool :=
  match computeShares total splits with
  | .ok _ => true
  | .error _ => false

/-- Boolean test for the defensive `AllocationExceedsTotal` outcome. -/
def allocationExceededError (r : Except AllocError (List (Int × ℚ))) : Bool :=
  match r with
  | .error .AllocationExceedsTotal => true
  | _ => false

/-- Net effect of one expense on one user's balance (credit if payer, minus the
user's allocated share); zero when allocation fails, a case excluded by the
hypotheses of every theorem using it. -/
def contrib (u : Int) (e : Expense) : ℚ :=
  match computeShares e.total_amount e.splits with
  | .error _ => 0
  | .ok shares =>
      (if e.paid_by_user_id = u then e.total_amount else 0)
        - (shares.map (fun p => if p.1 = u then p.2 else 0)).sum

/-- Net effect of one expense on the sum of all balances. -/
def vcontrib (e : Expense) : ℚ :=
  match computeShares e.total_amount e.splits with
  | .error _ => 0
  | .ok shares => e.total_amount - valuesSum shares

/-- The `ValueError`s raised by `add_shared_expense` / `update_shared_expense`
(distinguished by message), plus the allocator errors they propagate. -/
inductive ReqError where
  | InvalidTotal
  | NegativeSplitValue
  | NoParticipants
  | PayerNotIncluded
  | Alloc (e : AllocError)
deriving DecidableEq, Repr

/-- A row written to `shared_expense_splits` (the expense-id foreign key is the
enclosing expense row). -/
structure SplitRow where
  user_id : Int
  split_type : SplitKind
  split_value : ℚ
deriving DecidableEq, Repr

/-- The row written to `shared_expenses`; payload columns (title, date,
category, note) do not influence any claim and are omitted. -/
structure ExpenseRow where
  total_amount : ℚ
  paid_by_user_id : Int
deriving DecidableEq, Repr

/-- `add_shared_expense`: validation happens before any database session is
opened, so a raised error writes nothing; success writes the expense row and
one split row per declaration.  The `split_type` string check is made
unrepresentable by the `SplitKind` type. -/
def add_shared_expense (total : ℚ) (payer : Int) (splits : List Split) :
    Except ReqError (ExpenseRow × List SplitRow) :=
  if total ≤ 0 then .error .InvalidTotal
  else if splits.any (fun s => s.value < 0) then .error .NegativeSplitValue
  else if splits = [] then .error .NoParticipants
  else if splits.any (fun s => s.user_id = payer) then
    match computeShares total splits with
    | .error e => .error (.Alloc e)
    | .ok _ => .ok (⟨total, payer⟩, splits.map (fun s => ⟨s.user_id, s.split_type, s.value⟩))
  else .error .PayerNotIncluded

/-- `update_shared_expense`: same validation as `add_shared_expense` except
that there is no positivity check on the total and a missing payer is
auto-appended as a zero-value percentage declaration instead of raising. -/
def update_shared_expense (total : ℚ) (payer : Int) (splits : List Split) :
    Except ReqError (ExpenseRow × List SplitRow) :=
  if splits.any (fun s => s.value < 0) then .error .NegativeSplitValue
  else if splits = [] then .error .NoParticipants
  else
    let ns :=
      if splits.any (fun s => s.user_id = payer) then splits
      else splits ++ [⟨payer, SplitKind.percentage, 0⟩]
    match computeShares total ns with
    | .error e => .error (.Alloc e)
    | .ok _ => .ok (⟨total, payer⟩, ns.map (fun s => ⟨s.user_id, s.split_type, s.value⟩))

/-! ## Dictionary lemmas -/

lemma pct_ne_fixed : SplitKind.percentage ≠ SplitKind.fixed := fun h => SplitKind.noConfusion h

lemma fixed_ne_pct : SplitKind.fixed ≠ SplitKind.percentage := fun h => SplitKind.noConfusion h

lemma dget_nil (u : Int) : dget [] u = 0 := rfl

lemma valuesSum_nil : valuesSum [] = 0 := rfl

lemma valuesSum_cons (p : Int × ℚ) (ps : List (Int × ℚ)) :
    valuesSum (p :: ps) = p.2 + valuesSum ps := by
  simp [valuesSum]

lemma dget_dset_self (m : List (Int × ℚ)) (k : Int) (v : ℚ) :
    dget (dset m k v) k = v := by
  induction m with
  | nil => simp [dset, dget]
  | cons p ps ih =>
      by_cases h : p.1 = k
      · simp [dset, dget, h]
      · simp [dset, dget, h, ih]

lemma dget_dset_ne (m : List (Int × ℚ)) (k u : Int) (v : ℚ) (h : u ≠ k) :
    dget (dset m k v) u = dget m u := by
  induction m with
  | nil => simp [dset, dget, Ne.symm h]
  | cons p ps ih =>
      by_cases hp : p.1 = k
      · simp [dset, dget, hp, Ne.symm h]
      · simp only [dset, if_neg hp, dget]
        by_cases hu : p.1 = u <;> simp [hu, ih]

lemma valuesSum_dset (m : List (Int × ℚ)) (k : Int) (v : ℚ) :
    valuesSum (dset m k v) = valuesSum m - dget m k + v := by
  induction m with
  | nil => simp [dset, dget, valuesSum]
  | cons p ps ih =>
      by_cases h : p.1 = k
      · simp [dset, dget, h, valuesSum_cons]
        ring
      · simp [dset, dget, h, valuesSum_cons, ih]
        ring

lemma dget_addTo (m : List (Int × ℚ)) (k : Int) (x : ℚ) (u : Int) :
    dget (addTo m k x) u = dget m u + if u = k then x else 0 := by
  by_cases h : u = k
  · subst h; simp [addTo, dget_dset_self]
  · simp [addTo, dget_dset_ne m k u _ h, h]

lemma valuesSum_addTo (m : List (Int × ℚ)) (k : Int) (x : ℚ) :
    valuesSum (addTo m k x) = valuesSum m + x := by
  simp only [addTo, valuesSum_dset]
  ring

lemma dget_zero_of_not_mem_keys (m : List (Int × ℚ)) (u : Int)
    (h : u ∉ m.map Prod.fst) : dget m u = 0 := by
  induction m with
  | nil => rfl
  | cons p ps ih =>
      simp only [List.map_cons, List.mem_cons] at h
      push_neg at h
      have hp : p.1 ≠ u := fun hh => h.1 hh.symm
      simp [dget, hp, ih h.2]

lemma dget_of_mem_nodup (m : List (Int × ℚ)) (u : Int) (b : ℚ)
    (hmem : (u, b) ∈ m) (hnd : (m.map Prod.fst).Nodup) : dget m u = b := by
  induction m with
  | nil => cases hmem
  | cons p ps ih =>
      simp only [List.map_cons, List.nodup_cons] at hnd
      rcases List.mem_cons.mp hmem with h | h
      · simp [dget, ← h]
      · have hpu : p.1 ≠ u := by
          intro hpu
          exact hnd.1 (hpu ▸ (List.mem_map.mpr ⟨(u, b), h, rfl⟩))
        simp [dget, hpu, ih h hnd.2]

lemma mem_value_unique (m : List (Int × ℚ)) (u : Int) (a b : ℚ)
    (hnd : (m.map Prod.fst).Nodup) (ha : (u, a) ∈ m) (hb : (u, b) ∈ m) : a = b := by
  rw [← dget_of_mem_nodup m u a ha hnd, dget_of_mem_nodup m u b hb hnd]

/-! ## Sum helpers -/

lemma sum_map_neg {α : Type} (l : List α) (f : α → ℚ) :
    (l.map (fun x => -(f x))).sum = -((l.map f).sum) := by
  induction l with
  | nil => simp
  | cons x xs ih => simp [ih]; ring

lemma sum_map_mul_left {α : Type} (l : List α) (c : ℚ) (f : α → ℚ) :
    (l.map (fun x => c * f x)).sum = c * (l.map f).sum := by
  induction l with
  | nil => simp
  | cons x xs ih => simp [ih]; ring

lemma abs_sum_le_sum_abs_list (l : List ℚ) : |l.sum| ≤ (l.map (fun x => |x|)).sum := by
  induction l with
  | nil => simp
  | cons x xs ih =>
      simp only [List.sum_cons, List.map_cons]
      calc |x + xs.sum| ≤ |x| + |xs.sum| := abs_add _ _
        _ ≤ |x| + (xs.map (fun x => |x|)).sum := by linarith

lemma sum_le_card_mul (l : List ℚ) (c : ℚ) (h : ∀ x ∈ l, x ≤ c) :
    l.sum ≤ (l.length : ℚ) * c := by
  induction l with
  | nil => simp
  | cons x xs ih =>
      have hx := h x (List.mem_cons_self x xs)
      have hxs := ih (fun y hy => h y (List.mem_cons_of_mem x hy))
      simp only [List.sum_cons, List.length_cons]
      push_cast
      linarith

lemma sum_values_nonneg (l : List (Int × ℚ)) (h : ∀ p ∈ l, (9 / 1000 : ℚ) < p.2) :
    0 ≤ (l.map Prod.snd).sum := by
  induction l with
  | nil => simp
  | cons p ps ih =>
      have hp := h p (List.mem_cons_self p ps)
      have hps := ih (fun q hq => h q (List.mem_cons_of_mem p hq))
      simp only [List.map_cons, List.sum_cons]
      linarith

lemma sum_values_pos (l : List (Int × ℚ)) (h : ∀ p ∈ l, (9 / 1000 : ℚ) < p.2)
    (hne : l ≠ []) : 0 < (l.map Prod.snd).sum := by
  cases l with
  | nil => exact absurd rfl hne
  | cons p ps =>
      have hp := h p (List.mem_cons_self p ps)
      have hps := sum_values_nonneg ps (fun q hq => h q (List.mem_cons_of_mem p hq))
      simp only [List.map_cons, List.sum_cons]
      linarith

lemma nil_of_values_sum_zero (l : List (Int × ℚ)) (h : ∀ p ∈ l, (9 / 1000 : ℚ) < p.2)
    (hz : (l.map Prod.snd).sum = 0) : l = [] := by
  by_contra hne
  exact absurd hz (ne_of_gt (sum_values_pos l h hne))

/-! ## Fold lemmas -/

lemma dget_foldl_step {α : Type} (l : List α) (P : α → Prop) [DecidablePred P]
    (key : α → Int) (amt : α → ℚ) (base : List (Int × ℚ)) (u : Int) :
    dget (l.foldl (fun m x => if P x then addTo m (key x) (amt x) else m) base) u
      = dget base u + (l.map (fun x => if P x ∧ key x = u then amt x else 0)).sum := by
  induction l generalizing base with
  | nil => simp
  | cons x xs ih =>
      simp only [List.foldl_cons, List.map_cons, List.sum_cons]
      rw [ih]
      by_cases hP : P x
      · rw [if_pos hP, dget_addTo]
        by_cases hu : u = key x
        · simp [hP, hu]
          ring
        · have hku : key x ≠ u := fun h => hu h.symm
          simp [hP, hu, hku]
      · simp [hP]

lemma dget_foldl_addTo {α : Type} (l : List α) (key : α → Int) (amt : α → ℚ)
    (base : List (Int × ℚ)) (u : Int) :
    dget (l.foldl (fun m x => addTo m (key x) (amt x)) base) u
      = dget base u + (l.map (fun x => if key x = u then amt x else 0)).sum := by
  induction l generalizing base with
  | nil => simp
  | cons x xs ih =>
      simp only [List.foldl_cons, List.map_cons, List.sum_cons]
      rw [ih, dget_addTo]
      by_cases hu : u = key x
      · simp [hu]
        ring
      · have hku : key x ≠ u := fun h => hu h.symm
        simp [hu, hku]

lemma valuesSum_foldl_step {α : Type} (l : List α) (P : α → Prop) [DecidablePred P]
    (key : α → Int) (amt : α → ℚ) (base : List (Int × ℚ)) :
    valuesSum (l.foldl (fun m x => if P x then addTo m (key x) (amt x) else m) base)
      = valuesSum base + (l.map (fun x => if P x then amt x else 0)).sum := by
  induction l generalizing base with
  | nil => simp
  | cons x xs ih =>
      simp only [List.foldl_cons, List.map_cons, List.sum_cons]
      rw [ih]
      by_cases hP : P x
      · rw [if_pos hP, valuesSum_addTo, if_pos hP]
        ring
      · simp [hP]

lemma valuesSum_foldl_addTo {α : Type} (l : List α) (key : α → Int) (amt : α → ℚ)
    (base : List (Int × ℚ)) :
    valuesSum (l.foldl (fun m x => addTo m (key x) (amt x)) base)
      = valuesSum base + (l.map amt).sum := by
  induction l generalizing base with
  | nil => simp
  | cons x xs ih =>
      simp only [List.foldl_cons, List.map_cons, List.sum_cons]
      rw [ih, valuesSum_addTo]
      ring

lemma sum_map_const_rat {α : Type} (l : List α) (c : ℚ) :
    (l.map (fun _ => c)).sum = (l.length : ℚ) * c := by
  induction l with
  | nil => simp
  | cons x xs ih =>
      simp only [List.map_cons, List.sum_cons, List.length_cons, ih]
      push_cast
      ring

lemma sum_if_key_const {α : Type} (l : List α) (key : α → Int) (u : Int) (c : ℚ) :
    (l.map (fun x => if key x = u then c else 0)).sum
      = ((l.filter (fun x => key x = u)).length : ℚ) * c := by
  induction l with
  | nil => simp
  | cons x xs ih =>
      by_cases h : key x = u
      · simp [h, ih, List.filter_cons, List.length_cons]
        ring
      · simp [h, ih, List.filter_cons]

/-! ## Allocator lemmas -/

lemma valuesSum_fixedShares (splits : List Split) :
    valuesSum (fixedShares splits) = fixedTotal splits := by
  unfold fixedShares fixedTotal
  rw [valuesSum_foldl_step]
  simp [valuesSum]

lemma valuesSum_pctShares (r : ℚ) (splits : List Split) (base : List (Int × ℚ))
    (hpt : percentTotal splits ≠ 0) :
    valuesSum (pctShares r (percentTotal splits) splits base) = valuesSum base + r := by
  unfold pctShares
  rw [valuesSum_foldl_step]
  congr 1
  have hcong : ∀ s : Split,
      (if s.split_type = SplitKind.percentage then r * (s.value / percentTotal splits) else 0)
        = (r / percentTotal splits) * (if s.split_type = SplitKind.percentage then s.value else 0) := by
    intro s
    by_cases h : s.split_type = SplitKind.percentage
    · rw [if_pos h, if_pos h]
      field_simp
    · rw [if_neg h, if_neg h, mul_zero]
  rw [List.map_congr_left (fun s _ => hcong s), sum_map_mul_left]
  show r / percentTotal splits * percentTotal splits = r
  field_simp

lemma valuesSum_evenShares (even : ℚ) (splits : List Split) (base : List (Int × ℚ)) :
    valuesSum (evenShares even splits base) = valuesSum base + (splits.length : ℚ) * even := by
  unfold evenShares
  rw [valuesSum_foldl_addTo, sum_map_const_rat]

lemma valuesSum_computeShares (total : ℚ) (splits : List Split) (m : List (Int × ℚ))
    (hok : computeShares total splits = .ok m) : |valuesSum m - total| ≤ tol := by
  unfold computeShares at hok
  by_cases hempty : splits = []
  · rw [if_pos hempty] at hok
    exact Except.noConfusion hok
  rw [if_neg hempty] at hok
  by_cases hfix : tol < fixedTotal splits - total
  · rw [if_pos hfix] at hok
    exact Except.noConfusion hok
  rw [if_neg hfix] at hok
  by_cases halloc : total - fixedTotal splits < -tol
  · rw [if_pos halloc] at hok
    exact Except.noConfusion hok
  rw [if_neg halloc] at hok
  injection hok with hm
  subst hm
  simp only [distributeShares]
  by_cases hr : tol < total - fixedTotal splits
  · rw [if_pos hr]
    by_cases hpt : 0 < percentTotal splits
    · rw [if_pos hpt, valuesSum_pctShares _ _ _ (ne_of_gt hpt), valuesSum_fixedShares]
      have h0 : fixedTotal splits + (total - fixedTotal splits) - total = 0 := by ring
      rw [h0]
      norm_num [tol]
    · rw [if_neg hpt]
      have hlen : (splits.length : ℚ) ≠ 0 := by
        have hl : splits.length ≠ 0 := fun h => hempty (List.length_eq_zero.mp h)
        exact_mod_cast hl
      rw [valuesSum_evenShares, valuesSum_fixedShares]
      have h0 : (splits.length : ℚ) * ((total - fixedTotal splits) / (splits.length : ℚ))
          = total - fixedTotal splits := by
        rw [mul_comm]
        exact div_mul_cancel₀ _ hlen
      rw [h0]
      have h1 : fixedTotal splits + (total - fixedTotal splits) - total = 0 := by ring
      rw [h1]
      norm_num [tol]
  · rw [if_neg hr, valuesSum_fixedShares]
    rw [not_lt] at hfix hr
    rw [abs_le]
    constructor <;> linarith

/-! ## Accumulator lemmas -/

lemma dget_applyExpense (net : List (Int × ℚ)) (e : Expense) (u : Int) :
    dget (applyExpense net e) u = dget net u + contrib u e := by
  unfold applyExpense contrib
  cases hok : computeShares e.total_amount e.splits with
  | error err => simp
  | ok shares =>
      rw [dget_foldl_addTo shares Prod.fst (fun p => -p.2), dget_addTo]
      have hneg : (shares.map (fun p => if p.1 = u then -p.2 else 0)).sum
          = -((shares.map (fun p => if p.1 = u then p.2 else 0)).sum) := by
        rw [← sum_map_neg]
        apply congrArg
        apply List.map_congr_left
        intro p _
        by_cases h : p.1 = u <;> simp [h]
      rw [hneg]
      by_cases hu : u = e.paid_by_user_id
      · simp [hu]
        try ring
      · have hup : e.paid_by_user_id ≠ u := fun h => hu h.symm
        simp [hu, hup]
        try ring

lemma dget_foldl_applyExpense (es : List Expense) (base : List (Int × ℚ)) (u : Int) :
    dget (es.foldl applyExpense base) u = dget base u + (es.map (contrib u)).sum := by
  induction es generalizing base with
  | nil => simp
  | cons e es ih =>
      simp only [List.foldl_cons, List.map_cons, List.sum_cons]
      rw [ih, dget_applyExpense]
      ring

lemma dget_accumulate (es : List Expense) (u : Int) :
    dget (accumulate es) u = (es.map (contrib u)).sum := by
  unfold accumulate
  rw [dget_foldl_applyExpense]
  simp [dget]

lemma valuesSum_applyExpense (net : List (Int × ℚ)) (e : Expense) :
    valuesSum (applyExpense net e) = valuesSum net + vcontrib e := by
  unfold applyExpense vcontrib
  cases hok : computeShares e.total_amount e.splits with
  | error err => simp
  | ok shares =>
      rw [valuesSum_foldl_addTo shares Prod.fst (fun p => -p.2), valuesSum_addTo]
      have hneg : (shares.map (fun p => -p.2)).sum = -valuesSum shares :=
        sum_map_neg shares Prod.snd
      rw [hneg]
      ring

lemma valuesSum_foldl_applyExpense (es : List Expense) (base : List (Int × ℚ)) :
    valuesSum (es.foldl applyExpense base) = valuesSum base + (es.map vcontrib).sum := by
  induction es generalizing base with
  | nil => simp
  | cons e es ih =>
      simp only [List.foldl_cons, List.map_cons, List.sum_cons]
      rw [ih, valuesSum_applyExpense]
      ring

lemma valuesSum_accumulate (es : List Expense) :
    valuesSum (accumulate es) = (es.map vcontrib).sum := by
  unfold accumulate
  rw [valuesSum_foldl_applyExpense]
  simp [valuesSum]

lemma abs_vcontrib_le (e : Expense) (hok : allocSucceeds e.total_amount e.splits = true) :
    |vcontrib e| ≤ tol := by
  unfold allocSucceeds at hok
  unfold vcontrib
  cases hres : computeShares e.total_amount e.splits with
  | error err =>
      rw [hres] at hok
      simp at hok
  | ok shares =>
      have h := valuesSum_computeShares _ _ _ hres
      rw [abs_sub_comm] at h
      exact h

/-! ## Claims C1, C3, C4 -/

/-- C1: for every positive `total_amount` and every non-empty sequence of split
declarations that `_compute_shares_from_splits` accepts without raising an
error, the returned per-user shares sum to `total_amount` to within `1e-6`.
(Non-emptiness is implied by success: the empty list raises `NoParticipants`.) -/
theorem claim1_conservation (total : ℚ) (splits : List Split) (m : List (Int × ℚ))
    (hpos : 0 < total) (hok : computeShares total splits = .ok m) :
    |valuesSum m - total| ≤ tol := by
  have hp := hpos
  exact valuesSum_computeShares total splits m hok

/-- Witness for C1 at the dinner 60/40 scenario: `allocate(80, ...)` returns
`{alice: 48, bob: 32}` and `|48 + 32 - 80| ≤ 1e-6`. -/
theorem claim1_conservation_witness :
    |valuesSum [((1 : Int), (48 : ℚ)), (2, 32)] - 80| ≤ tol := by
  apply claim1_conservation 80 [⟨1, .percentage, 60⟩, ⟨2, .percentage, 40⟩]
  · norm_num
  · norm_num [computeShares, distributeShares, fixedShares, pctShares, evenShares, fixedTotal,
      percentTotal, addTo, dset, dget, tol, pct_ne_fixed, fixed_ne_pct, List.cons_ne_nil]

/-- C3: accumulating the expenses in any permutation of order yields the same
net balance for every user as any other permutation (exact equality in the
rational model, hence within `1e-9`). -/
theorem claim3_commutativity (es es' : List Expense) (hperm : es.Perm es')
    (hok : ∀ e ∈ es, allocSucceeds e.total_amount e.splits = true) (u : Int) :
    |dget (accumulate es) u - dget (accumulate es') u| ≤ 1 / 1000000000 := by
  have hmem := hok
  have h : dget (accumulate es) u = dget (accumulate es') u := by
    rw [dget_accumulate, dget_accumulate]
    exact List.Perm.sum_eq (hperm.map (contrib u))
  rw [h, sub_self, abs_zero]
  norm_num

/-- Witness for C3: swapping the order of two concrete expenses leaves user 1's
balance unchanged. -/
theorem claim3_commutativity_witness :
    |dget (accumulate [⟨80, 1, [⟨1, .percentage, 60⟩, ⟨2, .percentage, 40⟩]⟩,
        ⟨30, 2, [⟨1, .fixed, 10⟩, ⟨2, .percentage, 100⟩]⟩]) 1
      - dget (accumulate [⟨30, 2, [⟨1, .fixed, 10⟩, ⟨2, .percentage, 100⟩]⟩,
        ⟨80, 1, [⟨1, .percentage, 60⟩, ⟨2, .percentage, 40⟩]⟩]) 1| ≤ 1 / 1000000000 := by
  apply claim3_commutativity
  · exact List.Perm.swap _ _ _
  · intro e he
    simp only [List.mem_cons, List.not_mem_nil, or_false] at he
    rcases he with rfl | rfl <;>
      · norm_num [allocSucceeds, computeShares, distributeShares, fixedShares, pctShares,
          evenShares, fixedTotal, percentTotal, addTo, dset, dget, tol, pct_ne_fixed, fixed_ne_pct, List.cons_ne_nil]

/-- C4 as stated is false: two expenses, each leaving an undistributed
remainder of `9e-7` (below the `1e-6` distribution threshold), accumulate to a
net-balance sum of `1.8e-6 > 1e-6`, even though every allocation succeeds. -/
theorem claim4_counterexample :
    allocSucceeds (1 : ℚ) [⟨1, .fixed, 1 - 9 / 10000000⟩] = true
    ∧ ¬ (|valuesSum (accumulate [(⟨1, 1, [⟨1, .fixed, 1 - 9 / 10000000⟩]⟩ : Expense),
        ⟨1, 1, [⟨1, .fixed, 1 - 9 / 10000000⟩]⟩])| ≤ tol) := by
  constructor
  · norm_num [allocSucceeds, computeShares, distributeShares, fixedShares, pctShares,
      evenShares, fixedTotal, percentTotal, addTo, dset, dget, tol, pct_ne_fixed, fixed_ne_pct,
      List.cons_ne_nil]
  · have hacc : accumulate [(⟨1, 1, [⟨1, .fixed, 1 - 9 / 10000000⟩]⟩ : Expense),
        ⟨1, 1, [⟨1, .fixed, 1 - 9 / 10000000⟩]⟩] = [(1, 9 / 5000000)] := by
      norm_num [accumulate, applyExpense, computeShares, distributeShares, fixedShares, pctShares,
        evenShares, fixedTotal, percentTotal, addTo, dset, dget, tol, pct_ne_fixed, fixed_ne_pct,
        List.cons_ne_nil]
    rw [hacc, not_le]
    have habs : |valuesSum [((1 : Int), (9 : ℚ) / 5000000)]| = 9 / 5000000 := by
      rw [abs_of_pos] <;> norm_num [valuesSum]
    rw [habs]
    norm_num [tol]

/-- C4 amended: after a full accumulation pass over expenses whose splits all
allocate without error, the net balances sum to zero within `n · 1e-6`, where
`n` is the number of expenses (each expense can leave up to `1e-6`
undistributed, and the deviations add up). -/
theorem claim4_amended_zero_sum (es : List Expense)
    (hok : ∀ e ∈ es, allocSucceeds e.total_amount e.splits = true) :
    |valuesSum (accumulate es)| ≤ (es.length : ℚ) * tol := by
  rw [valuesSum_accumulate]
  calc |(es.map vcontrib).sum|
      ≤ ((es.map vcontrib).map (fun x => |x|)).sum := abs_sum_le_sum_abs_list _
    _ ≤ (((es.map vcontrib).map (fun x => |x|)).length : ℚ) * tol := by
        apply sum_le_card_mul
        intro x hx
        simp only [List.mem_map] at hx
        obtain ⟨y, hy, rfl⟩ := hx
        obtain ⟨e, he, rfl⟩ := hy
        exact abs_vcontrib_le e (hok e he)
    _ = (es.length : ℚ) * tol := by simp

/-- Witness for the amended C4 at the counterexample input: the two-expense
list stays within `2 · 1e-6`. -/
theorem claim4_amended_zero_sum_witness :
    |valuesSum (accumulate [(⟨1, 1, [⟨1, .fixed, 1 - 9 / 10000000⟩]⟩ : Expense),
        ⟨1, 1, [⟨1, .fixed, 1 - 9 / 10000000⟩]⟩])|
      ≤ (([(⟨1, 1, [⟨1, .fixed, 1 - 9 / 10000000⟩]⟩ : Expense),
        ⟨1, 1, [⟨1, .fixed, 1 - 9 / 10000000⟩]⟩].length : ℚ)) * tol := by
  apply claim4_amended_zero_sum
  intro e he
  simp only [List.mem_cons, List.not_mem_nil, or_false] at he
  rcases he with rfl | rfl <;>
    · norm_num [allocSucceeds, computeShares, distributeShares, fixedShares, pctShares,
        evenShares, fixedTotal, percentTotal, addTo, dset, dget, tol, pct_ne_fixed, fixed_ne_pct, List.cons_ne_nil]

/-! ## Claims C5, C6, C7 -/

lemma dget_evenShares (even : ℚ) (splits : List Split) (base : List (Int × ℚ)) (u : Int) :
    dget (evenShares even splits base) u
      = dget base u + ((splits.filter (fun s => s.user_id = u)).length : ℚ) * even := by
  induction splits generalizing base with
  | nil => simp [evenShares]
  | cons s ss ih =>
      simp only [evenShares, List.foldl_cons] at ih ⊢
      rw [ih, dget_addTo]
      by_cases h : u = s.user_id
      · simp [List.filter_cons, h, List.length_cons]
        ring
      · have h2 : ¬(s.user_id = u) := fun hh => h hh.symm
        simp [List.filter_cons, h, h2]

/-- C5: whenever `remaining = total_amount - fixed_total > 1e-6` and the
percentage values sum to zero, the equal-split fallback adds
`remaining / len(declarations)` once per declaration row — fixed rows included
— into the row's user, so a user named by two rows receives two even shares;
each user's final share is their fixed seed plus (number of rows naming them)
times the even share. -/
theorem claim5_even_split (total : ℚ) (splits : List Split) (hne : splits ≠ [])
    (hr : tol < total - fixedTotal splits) (hpt : percentTotal splits = 0) :
    computeShares total splits
      = .ok (evenShares ((total - fixedTotal splits) / (splits.length : ℚ)) splits
          (fixedShares splits))
    ∧ ∀ u, dget (evenShares ((total - fixedTotal splits) / (splits.length : ℚ)) splits
          (fixedShares splits)) u
        = dget (fixedShares splits) u
          + ((splits.filter (fun s => s.user_id = u)).length : ℚ)
            * ((total - fixedTotal splits) / (splits.length : ℚ)) := by
  have htol : (0 : ℚ) < tol := by norm_num [tol]
  constructor
  · unfold computeShares
    rw [if_neg hne]
    have h1 : ¬ tol < fixedTotal splits - total := by
      rw [not_lt]
      linarith
    have h2 : ¬ total - fixedTotal splits < -tol := by
      rw [not_lt]
      linarith
    rw [if_neg h1, if_neg h2]
    simp only [distributeShares]
    rw [if_pos hr, if_neg (by rw [hpt]; exact lt_irrefl 0)]
  · intro u
    exact dget_evenShares _ splits (fixedShares splits) u

/-- Witness for C5: `allocate(60, [{u1, percentage, 0}, {u2, percentage, 0}])`
gives each user 30. -/
theorem claim5_even_split_witness :
    computeShares 60 [⟨1, .percentage, 0⟩, ⟨2, .percentage, 0⟩] = .ok [(1, 30), (2, 30)] := by
  have h := claim5_even_split 60 [⟨1, .percentage, 0⟩, ⟨2, .percentage, 0⟩]
    (by simp)
    (by norm_num [fixedTotal, tol, pct_ne_fixed])
    (by norm_num [percentTotal])
  rw [h.1]
  norm_num [evenShares, fixedShares, fixedTotal, addTo, dset, dget, pct_ne_fixed]

/-- C6: `_compute_shares_from_splits` (with a positive total, per the
allocator's contract) raises `FixedExceedsTotal` exactly when the sum of
fixed-kind values exceeds `total_amount` by more than `1e-6`; in the error
case no share map is returned. -/
theorem claim6_fixed_exceeds_total (total : ℚ) (splits : List Split) (hpos : 0 < total) :
    computeShares total splits = .error .FixedExceedsTotal
      ↔ tol < fixedTotal splits - total := by
  unfold computeShares
  by_cases hempty : splits = []
  · rw [if_pos hempty]
    subst hempty
    have hft : fixedTotal [] = 0 := by simp [fixedTotal]
    have htol : (0 : ℚ) < tol := by norm_num [tol]
    constructor
    · intro h
      exact absurd h (by simp)
    · intro h
      rw [hft] at h
      exact absurd h (by linarith)
  · rw [if_neg hempty]
    by_cases hfix : tol < fixedTotal splits - total
    · rw [if_pos hfix]
      simp [hfix]
    · rw [if_neg hfix]
      by_cases halloc : total - fixedTotal splits < -tol
      · rw [if_pos halloc]
        simp [hfix]
      · rw [if_neg halloc]
        simp [hfix]

/-- Witness for C6: `allocate(100, [{u1, fixed, 60}, {u2, fixed, 50}])` raises
`FixedExceedsTotal` (110 > 100 + 1e-6). -/
theorem claim6_fixed_exceeds_total_witness :
    computeShares 100 [⟨1, .fixed, 60⟩, ⟨2, .fixed, 50⟩] = .error .FixedExceedsTotal := by
  apply (claim6_fixed_exceeds_total 100 [⟨1, .fixed, 60⟩, ⟨2, .fixed, 50⟩] (by norm_num)).mpr
  norm_num [fixedTotal, tol]

/-- C7: given that the `FixedExceedsTotal` check passed, the defensive
`AllocationExceedsTotal` branch is unreachable — in exact arithmetic
`fixed_total - total ≤ 1e-6` already implies `total - fixed_total ≥ -1e-6`, so
`_compute_shares_from_splits` can never return that error for any input. -/
theorem claim7_defensive_branch_unreachable (total : ℚ) (splits : List Split) :
    allocationExceededError (computeShares total splits) = false := by
  unfold allocationExceededError computeShares
  by_cases hempty : splits = []
  · rw [if_pos hempty]
  · rw [if_neg hempty]
    by_cases hfix : tol < fixedTotal splits - total
    · rw [if_pos hfix]
    · rw [if_neg hfix]
      by_cases halloc : total - fixedTotal splits < -tol
      · exfalso
        rw [not_lt] at hfix
        linarith
      · rw [if_neg halloc]

/-! ## Cent arithmetic lemmas -/

lemma isCent_iff (q : ℚ) : isCent q ↔ ∃ k : ℤ, q = (k : ℚ) / 100 := by
  unfold isCent
  constructor
  · intro h
    refine ⟨(q * 100).num, ?_⟩
    have h2 : ((q * 100).num : ℚ) = q * 100 := by
      rw [← Rat.den_eq_one_iff]
      exact h
    rw [h2]
    field_simp
  · rintro ⟨k, rfl⟩
    have h2 : (k : ℚ) / 100 * 100 = (k : ℚ) := div_mul_cancel₀ _ (by norm_num)
    rw [h2]
    exact Rat.den_intCast k

lemma isCent_sub (a b : ℚ) (ha : isCent a) (hb : isCent b) : isCent (a - b) := by
  rw [isCent_iff] at ha hb ⊢
  obtain ⟨j, rfl⟩ := ha
  obtain ⟨k, rfl⟩ := hb
  exact ⟨j - k, by push_cast; ring⟩

lemma isCent_neg (a : ℚ) (ha : isCent a) : isCent (-a) := by
  rw [isCent_iff] at ha ⊢
  obtain ⟨j, rfl⟩ := ha
  exact ⟨-j, by push_cast; ring⟩

lemma isCent_min (a b : ℚ) (ha : isCent a) (hb : isCent b) : isCent (min a b) := by
  rcases le_total a b with h | h
  · rw [min_eq_left h]; exact ha
  · rw [min_eq_right h]; exact hb

lemma cent_pos_ge (q : ℚ) (h : isCent q) (hq : 0 < q) : 1 / 100 ≤ q := by
  rw [isCent_iff] at h
  obtain ⟨k, rfl⟩ := h
  have hk : (0 : ℚ) < (k : ℚ) := by linarith
  have hk1 : (1 : ℤ) ≤ k := by
    have h0 : (0 : ℤ) < k := by exact_mod_cast hk
    omega
  have hk1q : (1 : ℚ) ≤ (k : ℚ) := by exact_mod_cast hk1
  linarith

lemma cent_small_zero (q : ℚ) (h : isCent q) (h1 : -(9 / 1000) ≤ q) (h2 : q ≤ 9 / 1000) :
    q = 0 := by
  rw [isCent_iff] at h
  obtain ⟨k, rfl⟩ := h
  have hup : (k : ℚ) < 1 := by linarith
  have hlo : (-1 : ℚ) < (k : ℚ) := by linarith
  have hk1 : k < 1 := by exact_mod_cast hup
  have hk2 : (-1 : ℤ) < k := by exact_mod_cast hlo
  have hk : k = 0 := by omega
  rw [hk]
  norm_num

lemma round2_cent (q : ℚ) (h : isCent q) : round2 q = q := by
  rw [isCent_iff] at h
  obtain ⟨k, rfl⟩ := h
  unfold round2 roundHalfEven
  have h100 : (k : ℚ) / 100 * 100 = (k : ℚ) := div_mul_cancel₀ _ (by norm_num)
  rw [h100]
  have hfl : ⌊(k : ℚ)⌋ = k := Int.floor_intCast k
  rw [hfl]
  rw [if_pos (by norm_num)]

/-! ## Sorting and settlement bookkeeping lemmas -/

lemma sortDesc_perm (l : List (Int × ℚ)) : (sortDesc l).Perm l :=
  List.perm_insertionSort _ l

lemma recvAmt_nil (u : Int) : recvAmt u [] = 0 := rfl

lemma paidAmt_nil (u : Int) : paidAmt u [] = 0 := rfl

lemma recvAmt_cons (u : Int) (s : Settlement) (ss : List Settlement) :
    recvAmt u (s :: ss) = (if s.receiver_id = u then s.amount else 0) + recvAmt u ss := by
  simp [recvAmt]

lemma paidAmt_cons (u : Int) (s : Settlement) (ss : List Settlement) :
    paidAmt u (s :: ss) = (if s.payer_id = u then s.amount else 0) + paidAmt u ss := by
  simp [paidAmt]

lemma dget_cons (p : Int × ℚ) (ps : List (Int × ℚ)) (k : Int) :
    dget (p :: ps) k = if p.1 = k then p.2 else dget ps k := rfl

/-! ## Termination of the settlement sweep -/

lemma settleLoopFuel_isSome :
    ∀ (n : Nat) (cs ds : List (Int × ℚ)), cs.length + ds.length ≤ n →
      (settleLoopFuel n cs ds).isSome = true := by
  intro n
  induction n with
  | zero =>
      intro cs ds h
      cases cs with
      | nil => simp [settleLoopFuel]
      | cons c cs' =>
          cases ds with
          | nil => simp [settleLoopFuel]
          | cons d ds' => simp at h
  | succ n ih =>
      intro cs ds h
      cases cs with
      | nil => simp [settleLoopFuel]
      | cons c cs' =>
          cases ds with
          | nil => simp [settleLoopFuel]
          | cons d ds' =>
              obtain ⟨cid, camt⟩ := c
              obtain ⟨did, damt⟩ := d
              simp only [settleLoopFuel, Option.isSome_map']
              simp only [List.length_cons] at h
              apply ih
              split_ifs with h1 h2 h2
              · omega
              · simp only [List.length_cons]
                omega
              · simp only [List.length_cons]
                omega
              · exfalso
                rcases le_total camt damt with hcd | hcd
                · rw [min_eq_left hcd, sub_self] at h1
                  exact h1 (by norm_num)
                · rw [min_eq_right hcd, sub_self] at h2
                  exact h2 (by norm_num)

/-! ## The settlement sweep settles every listed amount exactly
(when all amounts are whole cents) -/

lemma settleLoopFuel_spec :
    ∀ (n : Nat) (cs ds : List (Int × ℚ)) (out : List Settlement),
      cs.length + ds.length ≤ n →
      (cs.map Prod.fst).Nodup → (ds.map Prod.fst).Nodup →
      (∀ u ∈ cs.map Prod.fst, u ∉ ds.map Prod.fst) →
      (∀ p ∈ cs, isCent p.2 ∧ 9 / 1000 < p.2) →
      (∀ p ∈ ds, isCent p.2 ∧ 9 / 1000 < p.2) →
      (cs.map Prod.snd).sum = (ds.map Prod.snd).sum →
      settleLoopFuel n cs ds = some out →
      ∀ u, recvAmt u out = dget cs u ∧ paidAmt u out = dget ds u := by
  intro n
  induction n with
  | zero =>
      intro cs ds out hlen hndc hndd hdisj hc hd hsum hsome
      cases cs with
      | nil =>
          have hds : ds = [] :=
            nil_of_values_sum_zero ds (fun p hp => (hd p hp).2) (by simpa using hsum.symm)
          subst hds
          simp only [settleLoopFuel, Option.some.injEq] at hsome
          subst hsome
          intro u
          simp [recvAmt_nil, paidAmt_nil, dget_nil]
      | cons c cs' =>
          cases ds with
          | nil =>
              exfalso
              have hpos := sum_values_pos (c :: cs') (fun p hp => (hc p hp).2)
                (List.cons_ne_nil c cs')
              rw [hsum] at hpos
              simp at hpos
          | cons d ds' => simp at hlen
  | succ n ih =>
      intro cs ds out hlen hndc hndd hdisj hc hd hsum hsome
      cases cs with
      | nil =>
          have hds : ds = [] :=
            nil_of_values_sum_zero ds (fun p hp => (hd p hp).2) (by simpa using hsum.symm)
          subst hds
          simp only [settleLoopFuel, Option.some.injEq] at hsome
          subst hsome
          intro u
          simp [recvAmt_nil, paidAmt_nil, dget_nil]
      | cons c cs' =>
          cases ds with
          | nil =>
              exfalso
              have hpos := sum_values_pos (c :: cs') (fun p hp => (hc p hp).2)
                (List.cons_ne_nil c cs')
              rw [hsum] at hpos
              simp at hpos
          | cons d ds' =>
              obtain ⟨cid, camt⟩ := c
              obtain ⟨did, damt⟩ := d
              have hc_head := hc (cid, camt) (List.mem_cons_self _ _)
              have hd_head := hd (did, damt) (List.mem_cons_self _ _)
              have hc' : ∀ p ∈ cs', isCent p.2 ∧ 9 / 1000 < p.2 :=
                fun p hp => hc p (List.mem_cons_of_mem _ hp)
              have hd' : ∀ p ∈ ds', isCent p.2 ∧ 9 / 1000 < p.2 :=
                fun p hp => hd p (List.mem_cons_of_mem _ hp)
              simp only [List.map_cons, List.nodup_cons] at hndc hndd
              obtain ⟨hcid_nin, hndc'⟩ := hndc
              obtain ⟨hdid_nin, hndd'⟩ := hndd
              have hdisj' : ∀ v ∈ cs'.map Prod.fst, v ∉ ds'.map Prod.fst := by
                intro v hv hv2
                exact hdisj v (by simp [hv]) (by simp [hv2])
              have hcd_ne : cid ≠ did := by
                intro h
                exact hdisj cid (by simp) (by simp [h])
              have hcid_nin_ds : cid ∉ ds'.map Prod.fst := by
                intro h
                exact hdisj cid (by simp) (by simp [h])
              have hdid_nin_cs : ∀ v ∈ cs'.map Prod.fst, v ≠ did := by
                intro v hv h
                exact hdisj v (by simp [hv]) (by simp [h])
              simp only [List.map_cons, List.sum_cons] at hsum
              simp only [settleLoopFuel] at hsome
              simp only [List.length_cons] at hlen
              rcases le_total camt damt with hcd | hcd
              · -- pay = camt: the creditor is fully consumed
                rw [min_eq_left hcd, sub_self, if_pos (by norm_num : (0 : ℚ) ≤ 9 / 1000)]
                  at hsome
                by_cases hsmall : damt - camt ≤ 9 / 1000
                · -- the debtor's remainder is a cent amount in [0, 0.009]: it is 0
                  have hdc : damt = camt := by
                    have h0 : damt - camt = 0 :=
                      cent_small_zero _ (isCent_sub _ _ hd_head.1 hc_head.1)
                        (by linarith) hsmall
                    linarith
                  rw [if_pos hsmall] at hsome
                  obtain ⟨out', hout', rfl⟩ := Option.map_eq_some'.mp hsome
                  have ih' := ih cs' ds' out' (by omega) hndc' hndd' hdisj' hc' hd'
                    (by linarith) hout'
                  intro u
                  obtain ⟨hrecv', hpaid'⟩ := ih' u
                  rw [recvAmt_cons, paidAmt_cons, hrecv', hpaid']
                  dsimp only
                  constructor
                  · simp only [dget_cons]
                    by_cases hu1 : cid = u
                    · rw [if_pos hu1, if_pos hu1, round2_cent _ hc_head.1,
                        dget_zero_of_not_mem_keys cs' u (hu1 ▸ hcid_nin)]
                      ring
                    · rw [if_neg hu1, if_neg hu1]
                      ring
                  · simp only [dget_cons]
                    by_cases hu2 : did = u
                    · rw [if_pos hu2, if_pos hu2, round2_cent _ hc_head.1,
                        dget_zero_of_not_mem_keys ds' u (hu2 ▸ hdid_nin)]
                      rw [hdc]
                      ring
                    · rw [if_neg hu2, if_neg hu2]
                      ring
                · -- the debtor keeps a remainder damt - camt ≥ 0.01
                  rw [if_neg hsmall] at hsome
                  obtain ⟨out', hout', rfl⟩ := Option.map_eq_some'.mp hsome
                  have hdisj2 : ∀ v ∈ cs'.map Prod.fst,
                      v ∉ ((did, damt - camt) :: ds').map Prod.fst := by
                    intro v hv hv2
                    simp only [List.map_cons, List.mem_cons] at hv2
                    rcases hv2 with h | h
                    · exact hdid_nin_cs v hv h
                    · exact hdisj' v hv h
                  have hd2 : ∀ p ∈ (did, damt - camt) :: ds', isCent p.2 ∧ 9 / 1000 < p.2 := by
                    intro p hp
                    rcases List.mem_cons.mp hp with h | h
                    · subst h
                      exact ⟨isCent_sub _ _ hd_head.1 hc_head.1, lt_of_not_le hsmall⟩
                    · exact hd' p h
                  have ih' := ih cs' ((did, damt - camt) :: ds') out'
                    (by simp only [List.length_cons]; omega)
                    hndc' (by simp only [List.map_cons, List.nodup_cons]; exact ⟨hdid_nin, hndd'⟩)
                    hdisj2 hc' hd2
                    (by simp only [List.map_cons, List.sum_cons]; linarith) hout'
                  intro u
                  obtain ⟨hrecv', hpaid'⟩ := ih' u
                  rw [recvAmt_cons, paidAmt_cons, hrecv', hpaid']
                  dsimp only
                  constructor
                  · simp only [dget_cons]
                    by_cases hu1 : cid = u
                    · rw [if_pos hu1, if_pos hu1, round2_cent _ hc_head.1,
                        dget_zero_of_not_mem_keys cs' u (hu1 ▸ hcid_nin)]
                      ring
                    · rw [if_neg hu1, if_neg hu1]
                      ring
                  · simp only [dget_cons]
                    by_cases hu2 : did = u
                    · rw [if_pos hu2, if_pos hu2, if_pos hu2, round2_cent _ hc_head.1]
                      ring
                    · rw [if_neg hu2, if_neg hu2, if_neg hu2]
                      ring
              · -- pay = damt ≤ camt: the debtor is fully consumed
                rw [min_eq_right hcd, sub_self, if_pos (by norm_num : (0 : ℚ) ≤ 9 / 1000)]
                  at hsome
                by_cases hsmall : camt - damt ≤ 9 / 1000
                · -- symmetric small case: camt = damt, both advance
                  have hdc : camt = damt := by
                    have h0 : camt - damt = 0 :=
                      cent_small_zero _ (isCent_sub _ _ hc_head.1 hd_head.1)
                        (by linarith) hsmall
                    linarith
                  rw [if_pos hsmall] at hsome
                  obtain ⟨out', hout', rfl⟩ := Option.map_eq_some'.mp hsome
                  have ih' := ih cs' ds' out' (by omega) hndc' hndd' hdisj' hc' hd'
                    (by linarith) hout'
                  intro u
                  obtain ⟨hrecv', hpaid'⟩ := ih' u
                  rw [recvAmt_cons, paidAmt_cons, hrecv', hpaid']
                  dsimp only
                  constructor
                  · simp only [dget_cons]
                    by_cases hu1 : cid = u
                    · rw [if_pos hu1, if_pos hu1, round2_cent _ hd_head.1,
                        dget_zero_of_not_mem_keys cs' u (hu1 ▸ hcid_nin)]
                      rw [hdc]
                      ring
                    · rw [if_neg hu1, if_neg hu1]
                      ring
                  · simp only [dget_cons]
                    by_cases hu2 : did = u
                    · rw [if_pos hu2, if_pos hu2, round2_cent _ hd_head.1,
                        dget_zero_of_not_mem_keys ds' u (hu2 ▸ hdid_nin)]
                      ring
                    · rw [if_neg hu2, if_neg hu2]
                      ring
                · -- the creditor keeps a remainder camt - damt ≥ 0.01
                  rw [if_neg hsmall] at hsome
                  obtain ⟨out', hout', rfl⟩ := Option.map_eq_some'.mp hsome
                  have hdisj2 : ∀ v ∈ ((cid, camt - damt) :: cs').map Prod.fst,
                      v ∉ ds'.map Prod.fst := by
                    intro v hv hv2
                    simp only [List.map_cons, List.mem_cons] at hv
                    rcases hv with h | h
                    · subst h
                      exact hcid_nin_ds hv2
                    · exact hdisj' v h hv2
                  have hc2 : ∀ p ∈ (cid, camt - damt) :: cs', isCent p.2 ∧ 9 / 1000 < p.2 := by
                    intro p hp
                    rcases List.mem_cons.mp hp with h | h
                    · subst h
                      exact ⟨isCent_sub _ _ hc_head.1 hd_head.1, lt_of_not_le hsmall⟩
                    · exact hc' p h
                  have ih' := ih ((cid, camt - damt) :: cs') ds' out'
                    (by simp only [List.length_cons]; omega)
                    (by simp only [List.map_cons, List.nodup_cons]; exact ⟨hcid_nin, hndc'⟩)
                    hndd' hdisj2 hc2 hd'
                    (by simp only [List.map_cons, List.sum_cons]; linarith) hout'
                  intro u
                  obtain ⟨hrecv', hpaid'⟩ := ih' u
                  rw [recvAmt_cons, paidAmt_cons, hrecv', hpaid']
                  dsimp only
                  constructor
                  · simp only [dget_cons]
                    by_cases hu1 : cid = u
                    · rw [if_pos hu1, if_pos hu1, if_pos hu1, round2_cent _ hd_head.1]
                      ring
                    · rw [if_neg hu1, if_neg hu1, if_neg hu1]
                      ring
                  · simp only [dget_cons]
                    by_cases hu2 : did = u
                    · rw [if_pos hu2, if_pos hu2, round2_cent _ hd_head.1,
                        dget_zero_of_not_mem_keys ds' u (hu2 ▸ hdid_nin)]
                      ring
                    · rw [if_neg hu2, if_neg hu2]
                      ring

/-! ## From the sweep to `_settle` -/

lemma settleLoop_eq_fuel (cs ds : List (Int × ℚ)) :
    settleLoopFuel (cs.length + ds.length) cs ds = some (settleLoop cs ds) := by
  have h := settleLoopFuel_isSome (cs.length + ds.length) cs ds (le_refl _)
  unfold settleLoop
  obtain ⟨v, hv⟩ := Option.isSome_iff_exists.mp h
  rw [hv]
  rfl

lemma values_partition (net : List (Int × ℚ)) (hcent : ∀ p ∈ net, isCent p.2) :
    ((net.filter (fun p => 9 / 1000 < p.2)).map Prod.snd).sum
      = (((net.filter (fun p => p.2 < -(9 / 1000))).map (fun p => (p.1, -p.2))).map
          Prod.snd).sum
        + (net.map Prod.snd).sum := by
  induction net with
  | nil => simp
  | cons p ps ih =>
      have hps := ih (fun q hq => hcent q (List.mem_cons_of_mem p hq))
      have hp := hcent p (List.mem_cons_self p ps)
      by_cases h1 : (9 : ℚ) / 1000 < p.2
      · have h2 : ¬ (p.2 < -(9 / 1000)) := by linarith
        simp only [List.filter_cons, decide_eq_true h1, decide_eq_false h2, if_true, if_false,
          List.map_cons, List.sum_cons, Bool.false_eq_true]
        linarith
      · by_cases h2 : p.2 < -(9 / 1000)
        · simp only [List.filter_cons, decide_eq_false h1, decide_eq_true h2, if_true, if_false,
            List.map_cons, List.sum_cons, Bool.false_eq_true]
          linarith
        · have hz : p.2 = 0 := cent_small_zero p.2 hp (by linarith) (by linarith)
          simp only [List.filter_cons, decide_eq_false h1, decide_eq_false h2,
            List.map_cons, List.sum_cons, Bool.false_eq_true, if_false]
          rw [hz]
          linarith

lemma applySettlements_cons (ss : List Settlement) (p : Int × ℚ) (ps : List (Int × ℚ)) :
    applySettlements ss (p :: ps)
      = (p.1, p.2 + paidAmt p.1 ss - recvAmt p.1 ss) :: applySettlements ss ps := rfl

lemma dget_apply_zero : ∀ (net : List (Int × ℚ)) (ss : List Settlement),
    (∀ q ∈ net, q.2 + paidAmt q.1 ss - recvAmt q.1 ss = 0) →
    ∀ u, dget (applySettlements ss net) u = 0 := by
  intro net
  induction net with
  | nil => intro ss h u; rfl
  | cons p ps ih =>
      intro ss h u
      rw [applySettlements_cons, dget_cons]
      by_cases hu : p.1 = u
      · rw [if_pos hu]
        exact h p (List.mem_cons_self p ps)
      · rw [if_neg hu]
        exact ih ss (fun q hq => h q (List.mem_cons_of_mem p hq)) u

lemma mem_creditorsOf_iff (net : List (Int × ℚ)) (p : Int × ℚ) :
    p ∈ creditorsOf net ↔ p ∈ net ∧ 9 / 1000 < p.2 := by
  unfold creditorsOf
  rw [(sortDesc_perm _).mem_iff, List.mem_filter]
  simp

lemma mem_debtorsOf_iff (net : List (Int × ℚ)) (p : Int × ℚ) :
    p ∈ debtorsOf net ↔ ∃ q, q ∈ net ∧ q.2 < -(9 / 1000) ∧ p = (q.1, -q.2) := by
  unfold debtorsOf
  rw [(sortDesc_perm _).mem_iff, List.mem_map]
  constructor
  · rintro ⟨q, hq, rfl⟩
    rw [List.mem_filter] at hq
    exact ⟨q, hq.1, by simpa using hq.2, rfl⟩
  · rintro ⟨q, hq1, hq2, rfl⟩
    exact ⟨q, List.mem_filter.mpr ⟨hq1, by simpa using hq2⟩, rfl⟩

lemma keys_creditorsOf_nodup (net : List (Int × ℚ)) (hkeys : (net.map Prod.fst).Nodup) :
    ((creditorsOf net).map Prod.fst).Nodup := by
  have hperm : ((creditorsOf net).map Prod.fst).Perm
      ((net.filter (fun p => 9 / 1000 < p.2)).map Prod.fst) :=
    (sortDesc_perm _).map _
  rw [hperm.nodup_iff]
  exact ((List.filter_sublist net).map Prod.fst).nodup hkeys

lemma keys_debtorsOf_nodup (net : List (Int × ℚ)) (hkeys : (net.map Prod.fst).Nodup) :
    ((debtorsOf net).map Prod.fst).Nodup := by
  have hperm : ((debtorsOf net).map Prod.fst).Perm
      (((net.filter (fun p => p.2 < -(9 / 1000))).map (fun p => (p.1, -p.2))).map Prod.fst) :=
    (sortDesc_perm _).map _
  rw [hperm.nodup_iff]
  have hmm : ((net.filter (fun p => p.2 < -(9 / 1000))).map (fun p => (p.1, -p.2))).map Prod.fst
      = (net.filter (fun p => p.2 < -(9 / 1000))).map Prod.fst := by
    rw [List.map_map]
    rfl
  rw [hmm]
  exact ((List.filter_sublist net).map Prod.fst).nodup hkeys

lemma mem_keys_creditorsOf (net : List (Int × ℚ)) (v : Int) :
    v ∈ (creditorsOf net).map Prod.fst ↔ ∃ b, (v, b) ∈ net ∧ 9 / 1000 < b := by
  rw [List.mem_map]
  constructor
  · rintro ⟨p, hp, rfl⟩
    rw [mem_creditorsOf_iff] at hp
    exact ⟨p.2, hp.1, hp.2⟩
  · rintro ⟨b, hb1, hb2⟩
    exact ⟨(v, b), (mem_creditorsOf_iff net (v, b)).mpr ⟨hb1, hb2⟩, rfl⟩

lemma mem_keys_debtorsOf (net : List (Int × ℚ)) (v : Int) :
    v ∈ (debtorsOf net).map Prod.fst ↔ ∃ b, (v, b) ∈ net ∧ b < -(9 / 1000) := by
  rw [List.mem_map]
  constructor
  · rintro ⟨p, hp, rfl⟩
    rw [mem_debtorsOf_iff] at hp
    obtain ⟨q, hq1, hq2, rfl⟩ := hp
    exact ⟨q.2, hq1, hq2⟩
  · rintro ⟨b, hb1, hb2⟩
    exact ⟨(v, -b), (mem_debtorsOf_iff net (v, -b)).mpr ⟨(v, b), hb1, hb2, rfl⟩, rfl⟩

/-! ## Claims C2, C8, C10 -/

/-- C2 as stated is false.  The zero-sum map
`{1: 10, 2: 5, 3: 0.016, 4: -10.008, 5: -5.008}` (all balances beyond the
0.009 threshold) produces the transfers `4→1: 10` and `5→2: 5`: both debtors
are dropped with sub-threshold remainders `0.008` exactly when a creditor is
consumed, the loop ends with creditor 3 untouched, and user 3's balance stays
at `0.016 > 0.01`. -/
theorem claim2_counterexample :
    (([((1 : Int), (10 : ℚ)), (2, 5), (3, 2 / 125), (4, -(1251 / 125)),
        (5, -(626 / 125))].map Prod.snd).sum = 0)
    ∧ ¬ (∀ p ∈ applySettlements
          (settle [((1 : Int), (10 : ℚ)), (2, 5), (3, 2 / 125), (4, -(1251 / 125)),
            (5, -(626 / 125))])
          [((1 : Int), (10 : ℚ)), (2, 5), (3, 2 / 125), (4, -(1251 / 125)),
            (5, -(626 / 125))], |p.2| ≤ 1 / 100) := by
  constructor
  · norm_num
  · have happ : applySettlements
        (settle [((1 : Int), (10 : ℚ)), (2, 5), (3, 2 / 125), (4, -(1251 / 125)),
          (5, -(626 / 125))])
        [((1 : Int), (10 : ℚ)), (2, 5), (3, 2 / 125), (4, -(1251 / 125)),
          (5, -(626 / 125))]
        = [(1, 0), (2, 0), (3, 2 / 125), (4, -(1 / 125)), (5, -(1 / 125))] := by
      norm_num [settle, settleLoop, settleLoopFuel, creditorsOf, debtorsOf, sortDesc,
        List.insertionSort, List.orderedInsert, round2, roundHalfEven, min_def,
        applySettlements, recvAmt, paidAmt]
    intro hall
    have h3 := hall ((3 : Int), (2 / 125 : ℚ)) (by rw [happ]; simp)
    rw [show |((3 : Int), (2 / 125 : ℚ)).2| = 2 / 125 from by
      rw [abs_of_pos]
      norm_num] at h3
    norm_num at h3

/-- C2 amended: for a net-balance map with pairwise-distinct user ids whose
balances are all whole multiples of one cent and sum exactly to zero, applying
every settlement produced by `_settle` back against the balances (adding the
recorded amount to the payer, subtracting it from the receiver) drives every
user's balance exactly to zero (in particular within 0.01).  Cent amounts make
the recorded rounded transfer equal the unrounded one and force every
sub-threshold remainder to be exactly zero, which is what the counterexample
exploits failing. -/
theorem claim2_amended_settlement (net : List (Int × ℚ))
    (hkeys : (net.map Prod.fst).Nodup)
    (hcent : ∀ p ∈ net, isCent p.2)
    (hsum : (net.map Prod.snd).sum = 0) :
    ∀ u, dget (applySettlements (settle net) net) u = 0 := by
  have hndc := keys_creditorsOf_nodup net hkeys
  have hndd := keys_debtorsOf_nodup net hkeys
  have hdisj : ∀ v ∈ (creditorsOf net).map Prod.fst, v ∉ (debtorsOf net).map Prod.fst := by
    intro v hv hv2
    obtain ⟨b, hb1, hb2⟩ := (mem_keys_creditorsOf net v).mp hv
    obtain ⟨b', hb1', hb2'⟩ := (mem_keys_debtorsOf net v).mp hv2
    have heq := mem_value_unique net v b b' hkeys hb1 hb1'
    linarith
  have hcC : ∀ p ∈ creditorsOf net, isCent p.2 ∧ 9 / 1000 < p.2 := by
    intro p hp
    rw [mem_creditorsOf_iff] at hp
    exact ⟨hcent p hp.1, hp.2⟩
  have hcD : ∀ p ∈ debtorsOf net, isCent p.2 ∧ 9 / 1000 < p.2 := by
    intro p hp
    rw [mem_debtorsOf_iff] at hp
    obtain ⟨q, hq1, hq2, rfl⟩ := hp
    refine ⟨isCent_neg _ (hcent q hq1), ?_⟩
    show (9 : ℚ) / 1000 < -q.2
    linarith
  have hs : ((creditorsOf net).map Prod.snd).sum = ((debtorsOf net).map Prod.snd).sum := by
    have hC : ((creditorsOf net).map Prod.snd).sum
        = ((net.filter (fun p => 9 / 1000 < p.2)).map Prod.snd).sum :=
      ((sortDesc_perm _).map Prod.snd).sum_eq
    have hD : ((debtorsOf net).map Prod.snd).sum
        = (((net.filter (fun p => p.2 < -(9 / 1000))).map (fun p => (p.1, -p.2))).map
            Prod.snd).sum :=
      ((sortDesc_perm _).map Prod.snd).sum_eq
    rw [hC, hD, values_partition net hcent, hsum]
    ring
  have hsp := settleLoopFuel_spec ((creditorsOf net).length + (debtorsOf net).length)
    (creditorsOf net) (debtorsOf net) (settleLoop (creditorsOf net) (debtorsOf net))
    (le_refl _) hndc hndd hdisj hcC hcD hs (settleLoop_eq_fuel _ _)
  apply dget_apply_zero
  intro q hq
  obtain ⟨v, b⟩ := q
  obtain ⟨hrecv, hpaid⟩ := hsp v
  show b + paidAmt v (settle net) - recvAmt v (settle net) = 0
  have hrecv2 : recvAmt v (settle net) = dget (creditorsOf net) v := hrecv
  have hpaid2 : paidAmt v (settle net) = dget (debtorsOf net) v := hpaid
  rw [hrecv2, hpaid2]
  by_cases hb1 : 9 / 1000 < b
  · have hmemC : (v, b) ∈ creditorsOf net := (mem_creditorsOf_iff net (v, b)).mpr ⟨hq, hb1⟩
    have hdC : dget (creditorsOf net) v = b := dget_of_mem_nodup _ v b hmemC hndc
    have hnD : v ∉ (debtorsOf net).map Prod.fst :=
      hdisj v (List.mem_map.mpr ⟨(v, b), hmemC, rfl⟩)
    have hdD : dget (debtorsOf net) v = 0 := dget_zero_of_not_mem_keys _ v hnD
    rw [hdC, hdD]
    ring
  · by_cases hb2 : b < -(9 / 1000)
    · have hmemD : (v, -b) ∈ debtorsOf net :=
        (mem_debtorsOf_iff net (v, -b)).mpr ⟨(v, b), hq, hb2, rfl⟩
      have hdD : dget (debtorsOf net) v = -b := dget_of_mem_nodup _ v (-b) hmemD hndd
      have hnC : v ∉ (creditorsOf net).map Prod.fst := by
        intro hv
        exact hdisj v hv (List.mem_map.mpr ⟨(v, -b), hmemD, rfl⟩)
      have hdC : dget (creditorsOf net) v = 0 := dget_zero_of_not_mem_keys _ v hnC
      rw [hdC, hdD]
      ring
    · have hz : b = 0 := cent_small_zero b (hcent (v, b) hq) (by linarith) (by linarith)
      have hnC : v ∉ (creditorsOf net).map Prod.fst := by
        intro hv
        obtain ⟨b', hb1', hb2'⟩ := (mem_keys_creditorsOf net v).mp hv
        have heq := mem_value_unique net v b b' hkeys hq hb1'
        have hb0 : b' = 0 := by rw [← heq, hz]
        rw [hb0] at hb2'
        linarith
      have hnD : v ∉ (debtorsOf net).map Prod.fst := by
        intro hv
        obtain ⟨b', hb1', hb2'⟩ := (mem_keys_debtorsOf net v).mp hv
        have heq := mem_value_unique net v b b' hkeys hq hb1'
        have hb0 : b' = 0 := by rw [← heq, hz]
        rw [hb0] at hb2'
        linarith
      rw [dget_zero_of_not_mem_keys _ v hnC, dget_zero_of_not_mem_keys _ v hnD, hz]
      ring

/-- Witness for the amended C2 at the three-user scenario: user 1's balance is
exactly zero after applying the generated settlements. -/
theorem claim2_amended_settlement_witness :
    dget (applySettlements (settle [((1 : Int), (50 : ℚ)), (2, -20), (3, -30)])
      [((1 : Int), (50 : ℚ)), (2, -20), (3, -30)]) 1 = 0 := by
  apply claim2_amended_settlement [((1 : Int), (50 : ℚ)), (2, -20), (3, -30)]
    ?_ ?_ ?_ 1
  · simp
  · intro p hp
    simp only [List.mem_cons, List.not_mem_nil, or_false] at hp
    rcases hp with rfl | rfl | rfl
    · rw [show ((1 : Int), (50 : ℚ)).2 = 50 from rfl, isCent_iff]
      exact ⟨5000, by norm_num⟩
    · rw [show ((2 : Int), (-20 : ℚ)).2 = -20 from rfl, isCent_iff]
      exact ⟨-2000, by norm_num⟩
    · rw [show ((3 : Int), (-30 : ℚ)).2 = -30 from rfl, isCent_iff]
      exact ⟨-3000, by norm_num⟩
  · norm_num

/-- C8: `_settle({A: 50, B: -20, C: -30})` (users 1, 2, 3) returns exactly
`[{payer: C, receiver: A, amount: 30}, {payer: B, receiver: A, amount: 20}]`,
in that order: debtors sorted descending by debt put C (30) before B (20), and
the greedy sweep pairs both against the single creditor A. -/
theorem claim8_three_user_settlement :
    settle [((1 : Int), (50 : ℚ)), (2, -20), (3, -30)]
      = [⟨3, 1, 30⟩, ⟨2, 1, 20⟩] := by
  norm_num [settle, settleLoop, settleLoopFuel, creditorsOf, debtorsOf, sortDesc,
    List.insertionSort, List.orderedInsert, round2, roundHalfEven, min_def]

/-- C10: `_settle` terminates on every finite net-balance map.  The faithful
fuelled model of the `while` loop — which structurally allows an iteration
that advances neither index — always completes (returns `some`) within
`#creditors + #debtors` iterations, because the transfer equals the smaller of
the two head remainders, driving at least one of them to 0 (≤ 0.009) and
advancing that side's index; `settleLoop`, used by `settle`, is exactly that
run. -/
theorem claim10_settle_terminates (net : List (Int × ℚ)) :
    settleLoopFuel ((creditorsOf net).length + (debtorsOf net).length)
      (creditorsOf net) (debtorsOf net) = some (settle net) :=
  settleLoop_eq_fuel _ _

/-! ## Claim C9 -/

/-- C9 as stated is false for `update_shared_expense`: called with a non-empty
valid split list in which payer 3 does not appear, it does not raise
`PayerNotIncluded` — it auto-appends a zero-value percentage declaration for
the payer and succeeds, writing three split rows. -/
theorem claim9_counterexample :
    update_shared_expense 60 3 [⟨1, .percentage, 50⟩, ⟨2, .percentage, 50⟩]
      = .ok (⟨60, 3⟩,
          [⟨1, .percentage, 50⟩, ⟨2, .percentage, 50⟩, ⟨3, .percentage, 0⟩]) := by
  norm_num [update_shared_expense, computeShares, distributeShares, fixedShares, pctShares,
    evenShares, fixedTotal, percentTotal, addTo, dset, dget, tol, pct_ne_fixed, fixed_ne_pct,
    List.cons_ne_nil]

/-- C9 amended: given a positive total and a non-empty sequence of valid split
declarations in which the payer's user id does not appear,
`add_shared_expense` fails with `PayerNotIncluded` and writes no expense or
split rows, while `update_shared_expense` instead auto-appends a zero-value
percentage declaration for the payer and proceeds with the appended list
(succeeding exactly when the allocation on that list succeeds). -/
theorem claim9_amended_payer_not_included (total : ℚ) (payer : Int) (splits : List Split)
    (hpos : 0 < total) (hne : splits ≠ [])
    (hval : ∀ s ∈ splits, 0 ≤ s.value)
    (habs : ∀ s ∈ splits, s.user_id ≠ payer) :
    add_shared_expense total payer splits = .error .PayerNotIncluded
    ∧ update_shared_expense total payer splits
        = (match computeShares total (splits ++ [(⟨payer, SplitKind.percentage, 0⟩ : Split)]) with
          | .error e => .error (.Alloc e)
          | .ok _ => .ok ((⟨total, payer⟩ : ExpenseRow),
              (splits ++ [(⟨payer, SplitKind.percentage, 0⟩ : Split)]).map
                (fun s => (⟨s.user_id, s.split_type, s.value⟩ : SplitRow)))) := by
  have hneg : splits.any (fun s => s.value < 0) = false := by
    rw [List.any_eq_false]
    intro s hs
    simp only [decide_eq_true_eq]
    exact not_lt.mpr (hval s hs)
  have hseen : splits.any (fun s => s.user_id = payer) = false := by
    rw [List.any_eq_false]
    intro s hs
    simp only [decide_eq_true_eq]
    exact habs s hs
  constructor
  · unfold add_shared_expense
    rw [if_neg (not_le.mpr hpos)]
    simp only [hneg, Bool.false_eq_true, if_false, hseen]
    rw [if_neg hne]
  · unfold update_shared_expense
    simp only [hneg, Bool.false_eq_true, if_false, hseen]
    rw [if_neg hne]

/-- Witness for the amended C9: adding an expense paid by user 3 with splits
naming only users 1 and 2 raises `PayerNotIncluded` (and writes nothing). -/
theorem claim9_amended_payer_not_included_witness :
    add_shared_expense 60 3 [⟨1, .percentage, 50⟩, ⟨2, .percentage, 50⟩]
      = .error .PayerNotIncluded := by
  have h := claim9_amended_payer_not_included 60 3
    [⟨1, .percentage, 50⟩, ⟨2, .percentage, 50⟩]
    (by norm_num) (by simp)
    (by
      intro s hs
      simp only [List.mem_cons, List.not_mem_nil, or_false] at hs
      rcases hs with rfl | rfl <;> norm_num)
    (by
      intro s hs
      simp only [List.mem_cons, List.not_mem_nil, or_false] at hs
      rcases hs with rfl | rfl <;> norm_num)
  exact h.1
